import Mathlib

/-!
# Verification of the tantivy `DeleteQueue` (src/indexer/delete_queue.rs)

Shallow embedding of the delete queue: an append-only, lazily materialized,
multi-consumer broadcast log.  Blocks live in an explicit heap (`List Block`
addressed by index), mirroring the `Arc<Block>` graph of the Rust code; the
`RwLock`-protected mutable state (`writer` pending buffer and the weak
`last_block` pointer) is threaded explicitly.  Each Rust method that takes
`&self`/`&mut self` under a lock becomes a pure state transformer; this is the
linearization that the coarse per-queue lock of the source enforces.
-/

/-- A delete operation: `opstamp` is the caller-assigned `u64` write stamp
(only ever compared, never computed with, so `Nat` is faithful); `target`
stands for the opaque boxed `Weight` predicate, which the queue never
inspects — we carry an abstract token so that distinct operations stay
distinct. -/
structure DeleteOperation where
  opstamp : Nat
  target : Nat
deriving Repr, DecidableEq

/-- `Opstamp = u64`; only compared with `<`, never overflowed. -/
abbrev Opstamp := Nat

/-- The `next` field of a block: `InnerNextBlock::Writer(queue)` (unresolved,
bound back to the single queue of this development) or
`InnerNextBlock::Closed(block)` (resolved; the `Arc<Block>` strong reference
is an index into the block heap). -/
inductive InnerNextBlock where
  | writer : InnerNextBlock
  | closed : Nat → InnerNextBlock
deriving Repr, DecidableEq

/-- `Block { operations, next }`: an immutable run of operations plus the
lazy link to the successor. -/
structure Block where
  operations : List DeleteOperation
  next : InnerNextBlock
deriving Repr, DecidableEq

/-- The shared state of one `DeleteQueue`: the heap of all blocks ever
materialized (Rust: `Arc<Block>` cells; index = identity), the pending
`writer` buffer, and the weak pointer to the most recently materialized
block (`Weak::default()` upgrades to nothing, modeled as `none`; in this
model blocks are never reclaimed, so `some b` always upgrades). -/
structure QueueState where
  blocks : List Block
  writer : List DeleteOperation
  last_block : Option Nat
deriving Repr, DecidableEq

/-- The block stored at index `b` (a dangling index yields an inert empty
block; well-formed states never dereference one). -/
def QueueState.blockAt (s : QueueState) (b : Nat) : Block :=
  s.blocks.getD b { operations := [], next := InnerNextBlock.writer }

/-- `DeleteQueue::new()`: empty buffer, default (dead) weak pointer. -/
def DeleteQueue.new : QueueState :=
  { blocks := [], writer := [], last_block := none }

/-- `DeleteQueue::push`: append the operation to the pending buffer under the
write lock. -/
def DeleteQueue.push (s : QueueState) (op : DeleteOperation) : QueueState :=
  { s with writer := s.writer ++ [op] }

/-- `DeleteQueue::flush`: if the pending buffer is empty return `None`;
otherwise take the buffer, wrap it in a fresh block whose `next` is
`Writer(self)`, publish it as the weak `last_block`, and return it. -/
def DeleteQueue.flush (s : QueueState) : Option Nat × QueueState :=
  if s.writer.isEmpty then (none, s)
  else
    (some s.blocks.length,
     { blocks := s.blocks ++ [{ operations := s.writer, next := InnerNextBlock.writer }],
       writer := [],
       last_block := some s.blocks.length })

/-- `DeleteQueue::get_last_block`: upgrade the weak pointer if possible
(the double-checked read/write lock dance collapses in the linearized
model); otherwise install a fresh empty block bound to the queue. -/
def DeleteQueue.get_last_block (s : QueueState) : Nat × QueueState :=
  match s.last_block with
  | some b => (b, s)
  | none =>
    (s.blocks.length,
     { s with
        blocks := s.blocks ++ [{ operations := [], next := InnerNextBlock.writer }],
        last_block := some s.blocks.length })

/-- `DeleteCursor { block, pos }`: a consumer position — strong reference to
the current block plus an offset into it. -/
structure DeleteCursor where
  block : Nat
  pos : Nat
deriving Repr, DecidableEq

/-- `DeleteQueue::cursor`: position a new cursor at the end of the current
last block. -/
def DeleteQueue.cursor (s : QueueState) : DeleteCursor × QueueState :=
  match DeleteQueue.get_last_block s with
  | (b, s1) => ({ block := b, pos := (s1.blockAt b).operations.length }, s1)

/-- `Clone for DeleteCursor`: copy the block reference and the offset. -/
def DeleteCursor.clone (c : DeleteCursor) : DeleteCursor :=
  { block := c.block, pos := c.pos }

/-- `NextBlock::next_block` for the link of block `b`: fast path returns the
resolved successor; otherwise ask the queue to flush, and on success install
the flushed block as `Closed` (the double-checked re-read under the write
lock collapses in the linearized model). -/
def NextBlock.next_block (s : QueueState) (b : Nat) : Option Nat × QueueState :=
  match (s.blockAt b).next with
  | InnerNextBlock.closed c => (some c, s)
  | InnerNextBlock.writer =>
    match DeleteQueue.flush s with
    | (some nb, s1) =>
      (some nb,
       { s1 with
          blocks := s1.blocks.set b
            { operations := (s1.blockAt b).operations, next := InnerNextBlock.closed nb } })
    | (none, s1) => (none, s1)

/-- `DeleteCursor::load_block_if_required`: if the current block is fully
consumed, try to move to the successor block (position 0); report whether
the cursor now sits on a not-fully-consumed block. -/
def DeleteCursor.load_block_if_required (c : DeleteCursor) (s : QueueState) :
    Bool × DeleteCursor × QueueState :=
  if c.pos ≥ (s.blockAt c.block).operations.length then
    match NextBlock.next_block s c.block with
    | (some b, s1) => (true, { block := b, pos := 0 }, s1)
    | (none, s1) => (false, c, s1)
  else (true, c, s)

/-- `DeleteCursor::advance`: ensure an operation is available, then step past
it; returns the availability check's result. -/
def DeleteCursor.advance (c : DeleteCursor) (s : QueueState) :
    Bool × DeleteCursor × QueueState :=
  match c.load_block_if_required s with
  | (true, c1, s1) => (true, { c1 with pos := c1.pos + 1 }, s1)
  | (false, c1, s1) => (false, c1, s1)

/-- `DeleteCursor::get`: the operation at the current position, without
advancing.  The Rust body indexes `self.block.operations[self.pos]`, which
panics out of bounds; we use the partial lookup `[·]?` and prove separately
that the index is always in bounds in reachable states. -/
def DeleteCursor.get (c : DeleteCursor) (s : QueueState) :
    Option DeleteOperation × DeleteCursor × QueueState :=
  match c.load_block_if_required s with
  | (true, c1, s1) => ((s1.blockAt c1.block).operations[c1.pos]?, c1, s1)
  | (false, c1, s1) => (none, c1, s1)

/-- `DeleteCursor::is_behind_opstamp`: whether the current operation exists
and has opstamp strictly below the target. -/
def DeleteCursor.is_behind_opstamp (c : DeleteCursor) (s : QueueState) (t : Opstamp) :
    Bool × DeleteCursor × QueueState :=
  match c.get s with
  | (some op, c1, s1) => (decide (op.opstamp < t), c1, s1)
  | (none, c1, s1) => (false, c1, s1)

/-- Total number of operations held anywhere in the queue (materialized or
pending); an upper bound on how many loop iterations `skip_to` can make. -/
def QueueState.totalOps (s : QueueState) : Nat :=
  (s.blocks.map (fun b => b.operations.length)).sum + s.writer.length

/-- The `while is_behind_opstamp { advance }` loop of `skip_to`, with explicit
fuel.  Each iteration with a `true` test consumes one operation, so any fuel
above the number of remaining operations computes the loop's fixpoint. -/
def DeleteCursor.skipToFuel (fuel : Nat) (c : DeleteCursor) (s : QueueState) (t : Opstamp) :
    DeleteCursor × QueueState :=
  match fuel with
  | 0 => (c, s)
  | fuel + 1 =>
    match c.is_behind_opstamp s t with
    | (true, c1, s1) =>
      match c1.advance s1 with
      | (_, c2, s2) => DeleteCursor.skipToFuel fuel c2 s2 t
    | (false, c1, s1) => (c1, s1)

/-- `DeleteCursor::skip_to`: run the loop; `totalOps + 1` fuel provably
suffices (proved below), so this equals the Rust `while` loop. -/
def DeleteCursor.skip_to (c : DeleteCursor) (s : QueueState) (t : Opstamp) :
    DeleteCursor × QueueState :=
  DeleteCursor.skipToFuel (s.totalOps + 1) c s t

/-- All operations materialized in blocks `b, b+1, ...` of the heap, in heap
order.  Under the structural invariant `WF` this is exactly the operation
sequence reachable from block `b` by following `Closed` links. -/
def tailOps (bs : List Block) (b : Nat) : List DeleteOperation :=
  ((bs.drop b).map Block.operations).flatten

/-- The operations a cursor has yet to observe: the unconsumed part of its
chain of materialized blocks, followed by the pending buffer. -/
def remainingOps (c : DeleteCursor) (s : QueueState) : List DeleteOperation :=
  (tailOps s.blocks c.block).drop c.pos ++ s.writer

/-- Structural invariant of every reachable queue state: the block heap is a
single linear chain (block `i` is `Closed` to `i+1` except the final block,
which is still bound to the writer), the weak pointer designates the final
block, and every block except possibly block 0 (the empty block installed by
`get_last_block`) is non-empty, because `flush` refuses to materialize an
empty buffer. -/
def WF (s : QueueState) : Prop :=
  (∀ i, i < s.blocks.length →
    (s.blockAt i).next =
      (if i + 1 = s.blocks.length then InnerNextBlock.writer else InnerNextBlock.closed (i + 1)))
  ∧ s.last_block = (if s.blocks.length = 0 then none else some (s.blocks.length - 1))
  ∧ (∀ i, i < s.blocks.length → i ≠ 0 → (s.blockAt i).operations ≠ [])

/-- Invariant of a reachable cursor over a reachable state: the state is
well-formed, the cursor's block exists, and its offset never exceeds the
block's length. -/
def CursorInv (c : DeleteCursor) (s : QueueState) : Prop :=
  WF s ∧ c.block < s.blocks.length ∧ c.pos ≤ (s.blockAt c.block).operations.length

instance (s : QueueState) : Decidable (WF s) := by
  unfold WF; infer_instance

instance (c : DeleteCursor) (s : QueueState) : Decidable (CursorInv c s) := by
  unfold CursorInv; infer_instance

/-! ## Basic lemmas about the block heap -/

theorem set_of_getElem?_eq {α : Type _} (l : List α) (i : Nat) (a : α)
    (h : l[i]? = some a) : l.set i a = l := by
  have hlt : i < l.length := by
    rcases List.getElem?_eq_some.mp h with ⟨hh, _⟩
    exact hh
  apply List.ext_getElem?
  intro n
  rw [List.getElem?_set]
  split
  case isTrue hh =>
    subst hh
    exact h.symm
  case isFalse hh => rfl

theorem blockAt_eq (s : QueueState) (b : Nat) (h : b < s.blocks.length) :
    s.blockAt b = s.blocks[b] := by
  rw [QueueState.blockAt, List.getD_eq_getElem?_getD, List.getElem?_eq_getElem h]
  rfl

theorem blockAt_default (s : QueueState) (b : Nat) (h : s.blocks.length ≤ b) :
    s.blockAt b = { operations := [], next := InnerNextBlock.writer } := by
  rw [QueueState.blockAt, List.getD_eq_getElem?_getD, List.getElem?_eq_none h]
  rfl

theorem tailOps_eq_drop_map (bs : List Block) (b : Nat) :
    tailOps bs b = ((bs.map Block.operations).drop b).flatten := by
  simp [tailOps, List.map_drop]

theorem tailOps_cons (bs : List Block) (b : Nat) (h : b < bs.length) :
    tailOps bs b = bs[b].operations ++ tailOps bs (b + 1) := by
  simp only [tailOps]
  rw [List.drop_eq_getElem_cons h, List.map_cons, List.flatten_cons]

theorem tailOps_append_one (bs : List Block) (nb : Block) (b : Nat) (h : b ≤ bs.length) :
    tailOps (bs ++ [nb]) b = tailOps bs b ++ nb.operations := by
  simp [tailOps, List.drop_append_of_le_length h]

theorem tailOps_nil (bs : List Block) (b : Nat) (h : bs.length ≤ b) : tailOps bs b = [] := by
  simp [tailOps, List.drop_eq_nil_of_le h]

theorem tailOps_set_same_ops (bs : List Block) (i : Nat) (blk : Block)
    (h : i < bs.length) (hops : blk.operations = bs[i].operations) (b : Nat) :
    tailOps (bs.set i blk) b = tailOps bs b := by
  rw [tailOps_eq_drop_map, tailOps_eq_drop_map, List.map_set, hops,
    set_of_getElem?_eq]
  rw [List.getElem?_map, List.getElem?_eq_getElem h]
  rfl

theorem length_ops_le_tailOps (bs : List Block) (b : Nat) (h : b < bs.length) :
    bs[b].operations.length ≤ (tailOps bs b).length := by
  rw [tailOps_cons bs b h]
  simp

theorem blockAt_getElem? (s : QueueState) (b : Nat) :
    s.blockAt b = (s.blocks[b]?).getD { operations := [], next := InnerNextBlock.writer } := by
  rw [QueueState.blockAt, List.getD_eq_getElem?_getD]

theorem blockAt_ops (s : QueueState) (i : Nat) :
    (s.blockAt i).operations = (s.blocks.map Block.operations).getD i [] := by
  rw [blockAt_getElem?, List.getD_eq_getElem?_getD, List.getElem?_map]
  cases s.blocks[i]? <;> rfl

theorem totalOps_eq (s : QueueState) :
    s.totalOps = ((s.blocks.map Block.operations).map List.length).sum + s.writer.length := by
  rw [QueueState.totalOps, List.map_map]
  rfl

theorem tailOps_of_map_append (bs l : List Block) (w : List DeleteOperation)
    (hmap : bs.map Block.operations = l.map Block.operations ++ [w]) (b : Nat)
    (hb : b ≤ l.length) :
    tailOps bs b = tailOps l b ++ w := by
  rw [tailOps_eq_drop_map, tailOps_eq_drop_map, hmap,
    List.drop_append_of_le_length (by simpa using hb), List.flatten_append]
  simp

theorem blockAt_ops_of_map_append (s2 s : QueueState) (w : List DeleteOperation)
    (hmap : s2.blocks.map Block.operations = s.blocks.map Block.operations ++ [w])
    (i : Nat) (hi : i < s.blocks.length) :
    (s2.blockAt i).operations = (s.blockAt i).operations := by
  rw [blockAt_ops, blockAt_ops, hmap, List.getD_eq_getElem?_getD, List.getD_eq_getElem?_getD,
    List.getElem?_append, if_pos (by simpa using hi)]

/-! ## `flush` characterization -/

theorem flush_empty (s : QueueState) (h : s.writer = []) :
    DeleteQueue.flush s = (none, s) := by
  simp [DeleteQueue.flush, h]

theorem flush_nonempty (s : QueueState) (h : s.writer ≠ []) :
    DeleteQueue.flush s =
      (some s.blocks.length,
       { blocks := s.blocks ++ [{ operations := s.writer, next := InnerNextBlock.writer }],
         writer := [],
         last_block := some s.blocks.length }) := by
  simp [DeleteQueue.flush, h]

/-! ## `next_block` characterization -/

theorem next_block_closed (s : QueueState) (b nb : Nat)
    (h : (s.blockAt b).next = InnerNextBlock.closed nb) :
    NextBlock.next_block s b = (some nb, s) := by
  simp [NextBlock.next_block, h]

theorem next_block_writer_empty (s : QueueState) (b : Nat)
    (hn : (s.blockAt b).next = InnerNextBlock.writer) (hw : s.writer = []) :
    NextBlock.next_block s b = (none, s) := by
  simp [NextBlock.next_block, hn, flush_empty s hw]

theorem blockAt_mk (bs : List Block) (w : List DeleteOperation) (lb : Option Nat) (b : Nat) :
    (QueueState.mk bs w lb).blockAt b =
      (bs[b]?).getD { operations := [], next := InnerNextBlock.writer } :=
  blockAt_getElem? _ _

theorem next_block_flush (s : QueueState) (b : Nat) (hwf : WF s)
    (hb : b < s.blocks.length)
    (hn : (s.blockAt b).next = InnerNextBlock.writer) (hw : s.writer ≠ []) :
    ∃ s2, NextBlock.next_block s b = (some s.blocks.length, s2) ∧
      s2.blocks.map Block.operations = s.blocks.map Block.operations ++ [s.writer] ∧
      s2.writer = [] ∧
      s2.last_block = some s.blocks.length ∧
      s2.blocks.length = s.blocks.length + 1 ∧
      (s2.blockAt b).next = InnerNextBlock.closed s.blocks.length ∧
      (s2.blockAt s.blocks.length).operations = s.writer ∧
      WF s2 := by
  obtain ⟨hchain, hlast, hne⟩ := hwf
  have hb1 : b + 1 = s.blocks.length := by
    have h1 := hchain b hb
    rw [hn] at h1
    by_contra hne1
    rw [if_neg (fun hcon => hne1 hcon)] at h1
    cases h1
  set l := s.blocks with hl
  set n := s.blocks.length with hnn
  have hll : l.length = n := rfl
  set wb : Block := { operations := s.writer, next := InnerNextBlock.writer } with hwb
  set cb : Block := { operations := l[b].operations, next := InnerNextBlock.closed n } with hcb
  have hlen2 : (l ++ [wb]).length = n + 1 := by simp [hll]
  have hgetb : (l ++ [wb])[b]? = some l[b] := by
    rw [List.getElem?_append, if_pos hb]
    exact List.getElem?_eq_getElem hb
  have hX : ((QueueState.mk (l ++ [wb]) [] (some n)).blockAt b) = l[b] := by
    rw [blockAt_mk, hgetb]
    rfl
  have heq : NextBlock.next_block s b =
      (some n, QueueState.mk ((l ++ [wb]).set b cb) [] (some n)) := by
    simp only [NextBlock.next_block, hn, flush_nonempty s hw]
    rw [hcb, ← hX]
  refine ⟨QueueState.mk ((l ++ [wb]).set b cb) [] (some n), heq, ?_, rfl, rfl, ?_, ?_, ?_, ?_⟩
  · -- map of operations is the old map extended by the flushed buffer
    show ((l ++ [wb]).set b cb).map Block.operations = l.map Block.operations ++ [s.writer]
    rw [List.map_set]
    have hv : ((l ++ [wb]).map Block.operations)[b]? = some cb.operations := by
      rw [List.getElem?_map, hgetb]
      rfl
    rw [set_of_getElem?_eq _ _ _ hv]
    simp [hwb]
  · show ((l ++ [wb]).set b cb).length = n + 1
    simp [hll]
  · -- the trigger block's link is now Closed to the new block
    rw [blockAt_mk, List.getElem?_set, if_pos rfl, if_pos (by rw [hlen2]; omega)]
    rfl
  · -- the new block holds exactly the flushed buffer
    rw [blockAt_mk, List.getElem?_set, if_neg (by omega),
      List.getElem?_append_right (by rw [hll])]
    rw [hll]
    simp
  · -- the new state is well-formed
    refine ⟨?_, ?_, ?_⟩
    · intro i hi
      rw [show ((l ++ [wb]).set b cb).length = n + 1 by simp [hll]] at hi
      rw [blockAt_mk, List.getElem?_set]
      rw [show ((l ++ [wb]).set b cb).length = n + 1 by simp [hll]]
      by_cases hib : b = i
      · subst hib
        rw [if_pos rfl, if_pos (by rw [hlen2]; omega), if_neg (by omega)]
        show cb.next = InnerNextBlock.closed (b + 1)
        rw [hcb, hb1]
      · rw [if_neg hib, List.getElem?_append]
        by_cases hin : i < l.length
        · rw [if_pos hin, List.getElem?_eq_getElem hin]
          have h2 := hchain i (hll ▸ hin)
          rw [blockAt_eq _ _ (hll ▸ hin)] at h2
          show l[i].next = _
          rw [h2, if_neg (by omega), if_neg (by omega)]
        · have hieq : i = n := by rw [hll] at hin; omega
          subst hieq
          rw [if_neg hin, show n - l.length = 0 by rw [hll]; omega, if_pos rfl]
          rfl
    · show (some n : Option Nat) = _
      rw [show ((l ++ [wb]).set b cb).length = n + 1 by simp [hll]]
      simp
    · intro i hi hi0
      rw [show ((l ++ [wb]).set b cb).length = n + 1 by simp [hll]] at hi
      rw [blockAt_mk, List.getElem?_set]
      by_cases hib : b = i
      · subst hib
        rw [if_pos rfl, if_pos (by rw [hlen2]; omega)]
        show cb.operations ≠ []
        rw [hcb]
        have := hne b hb hi0
        rw [blockAt_eq _ _ hb] at this
        exact this
      · rw [if_neg hib, List.getElem?_append]
        by_cases hin : i < l.length
        · rw [if_pos hin, List.getElem?_eq_getElem hin]
          have h3 := hne i (hll ▸ hin) hi0
          rw [blockAt_eq _ _ (hll ▸ hin)] at h3
          exact h3
        · have hieq : i = n := by rw [hll] at hin; omega
          subst hieq
          rw [if_neg hin, show n - l.length = 0 by rw [hll]; omega]
          exact hw

/-! ## The exhaustion check: `load_block_if_required` specification -/

theorem remaining_decomp (c : DeleteCursor) (s : QueueState)
    (hb : c.block < s.blocks.length)
    (hp : c.pos ≤ (s.blockAt c.block).operations.length) :
    remainingOps c s =
      (s.blockAt c.block).operations.drop c.pos ++
        (tailOps s.blocks (c.block + 1) ++ s.writer) := by
  rw [remainingOps, tailOps_cons _ _ hb, ← blockAt_eq _ _ hb,
    List.drop_append_of_le_length hp, List.append_assoc]

theorem getElem?_zero_append_of_ne_nil {α : Type _} (l1 l2 : List α) (h : l1 ≠ []) :
    (l1 ++ l2)[0]? = l1[0]? := by
  rw [List.getElem?_append, if_pos (List.length_pos.mpr h)]

theorem load_spec (c : DeleteCursor) (s : QueueState) (h : CursorInv c s) :
    ∃ r c1 s1, c.load_block_if_required s = (r, c1, s1) ∧
      CursorInv c1 s1 ∧
      remainingOps c1 s1 = remainingOps c s ∧
      (r = true ↔ remainingOps c s ≠ []) ∧
      (r = true → c1.pos < (s1.blockAt c1.block).operations.length ∧
        (s1.blockAt c1.block).operations[c1.pos]? = (remainingOps c s).head?) ∧
      (∀ c2, CursorInv c2 s → CursorInv c2 s1 ∧ remainingOps c2 s1 = remainingOps c2 s) ∧
      s1.totalOps = s.totalOps := by
  obtain ⟨hwf, hcb, hcp⟩ := h
  by_cases hpos : c.pos ≥ (s.blockAt c.block).operations.length
  case neg =>
    -- the current block still has operations at or after the cursor offset
    have hlt : c.pos < (s.blockAt c.block).operations.length := Nat.lt_of_not_le hpos
    have hdne : (s.blockAt c.block).operations.drop c.pos ≠ [] := by
      intro hcon
      have hlencon := congrArg List.length hcon
      rw [List.length_drop] at hlencon
      simp at hlencon
      omega
    refine ⟨true, c, s, ?_, ⟨hwf, hcb, hcp⟩, rfl, ?_, ?_, fun c2 hc2 => ⟨hc2, rfl⟩, rfl⟩
    · simp [DeleteCursor.load_block_if_required, hpos]
    · constructor
      · intro _
        rw [remaining_decomp c s hcb hcp]
        intro hcon
        exact hdne (List.append_eq_nil.mp hcon).1
      · intro _
        rfl
    · intro _
      refine ⟨hlt, ?_⟩
      rw [remaining_decomp c s hcb hcp, List.head?_eq_getElem?,
        getElem?_zero_append_of_ne_nil _ _ hdne, List.getElem?_drop, Nat.add_zero]
  case pos =>
    have hpe : c.pos = (s.blockAt c.block).operations.length := Nat.le_antisymm hcp hpos
    have hdrop : (s.blockAt c.block).operations.drop c.pos = [] := by
      rw [hpe, List.drop_length]
    obtain ⟨hchain, hlast, hnonempty⟩ := hwf
    have hch := hchain c.block hcb
    by_cases hend : c.block + 1 = s.blocks.length
    case neg =>
      -- the successor block is already materialized: follow the Closed link
      rw [if_neg hend] at hch
      have hsucc : c.block + 1 < s.blocks.length := by omega
      have hnb := next_block_closed s c.block (c.block + 1) hch
      have hne1 : (s.blockAt (c.block + 1)).operations ≠ [] :=
        hnonempty (c.block + 1) hsucc (by omega)
      have hlen1 : 0 < (s.blockAt (c.block + 1)).operations.length :=
        List.length_pos.mpr hne1
      refine ⟨true, ⟨c.block + 1, 0⟩, s, ?_,
        ⟨⟨hchain, hlast, hnonempty⟩, hsucc, Nat.zero_le _⟩,
        ?_, ?_, ?_, fun c2 hc2 => ⟨hc2, rfl⟩, rfl⟩
      · simp [DeleteCursor.load_block_if_required, hpos, hnb]
      · show (tailOps s.blocks (c.block + 1)).drop 0 ++ s.writer = remainingOps c s
        rw [List.drop_zero, remaining_decomp c s hcb hcp, hdrop, List.nil_append]
      · constructor
        · intro _
          rw [remaining_decomp c s hcb hcp, hdrop, List.nil_append,
            tailOps_cons _ _ hsucc, ← blockAt_eq _ _ hsucc]
          intro hcon
          rcases List.append_eq_nil.mp hcon with ⟨h1, _⟩
          exact hne1 (List.append_eq_nil.mp h1).1
        · intro _
          rfl
      · intro _
        refine ⟨hlen1, ?_⟩
        show (s.blockAt (c.block + 1)).operations[0]? = (remainingOps c s).head?
        rw [remaining_decomp c s hcb hcp, hdrop, List.nil_append, tailOps_cons _ _ hsucc,
          ← blockAt_eq _ _ hsucc, List.append_assoc, List.head?_eq_getElem?,
          getElem?_zero_append_of_ne_nil _ _ hne1]
    case pos =>
      -- the cursor sits on the live tail block: ask the queue to flush
      rw [if_pos hend] at hch
      have htail : tailOps s.blocks (c.block + 1) = [] := tailOps_nil _ _ (by omega)
      have hremc : remainingOps c s = s.writer := by
        rw [remaining_decomp c s hcb hcp, hdrop, htail, List.nil_append, List.nil_append]
      by_cases hwrit : s.writer = []
      case pos =>
        -- nothing pending: report the end of the queue, no state change
        have hnb := next_block_writer_empty s c.block hch hwrit
        refine ⟨false, c, s, ?_, ⟨⟨hchain, hlast, hnonempty⟩, hcb, hcp⟩, rfl, ?_, ?_,
          fun c2 hc2 => ⟨hc2, rfl⟩, rfl⟩
        · simp [DeleteCursor.load_block_if_required, hpos, hnb]
        · rw [hremc, hwrit]
          simp
        · intro hcon
          cases hcon
      case neg =>
        -- flush the pending buffer into a fresh block and move onto it
        obtain ⟨s2, hnb, hmap, hw2, hlb2, hlen2, hclosed2, hops2, hwf2⟩ :=
          next_block_flush s c.block ⟨hchain, hlast, hnonempty⟩ hcb hch hwrit
        have hlen0 : 0 < (s2.blockAt s.blocks.length).operations.length := by
          rw [hops2]
          exact List.length_pos.mpr hwrit
        refine ⟨true, ⟨s.blocks.length, 0⟩, s2, ?_,
          ⟨hwf2, by show s.blocks.length < s2.blocks.length; omega, Nat.zero_le _⟩,
          ?_, ?_, ?_, ?_, ?_⟩
        · simp [DeleteCursor.load_block_if_required, hpos, hnb]
        · show (tailOps s2.blocks s.blocks.length).drop 0 ++ s2.writer = remainingOps c s
          rw [List.drop_zero, hw2, List.append_nil,
            tailOps_of_map_append s2.blocks s.blocks s.writer hmap s.blocks.length le_rfl,
            tailOps_nil _ _ le_rfl, List.nil_append, hremc]
        · rw [hremc]
          constructor
          · intro _
            exact hwrit
          · intro _
            rfl
        · intro _
          refine ⟨hlen0, ?_⟩
          show (s2.blockAt s.blocks.length).operations[0]? = (remainingOps c s).head?
          rw [hops2, hremc, List.head?_eq_getElem?]
        · intro c2 hc2
          obtain ⟨_, hc2b, hc2p⟩ := hc2
          have hops_pres := blockAt_ops_of_map_append s2 s s.writer hmap c2.block hc2b
          refine ⟨⟨hwf2, by omega, by rw [hops_pres]; exact hc2p⟩, ?_⟩
          have htail2 : tailOps s2.blocks c2.block = tailOps s.blocks c2.block ++ s.writer :=
            tailOps_of_map_append s2.blocks s.blocks s.writer hmap c2.block (le_of_lt hc2b)
          have hple : c2.pos ≤ (tailOps s.blocks c2.block).length := by
            calc c2.pos ≤ (s.blockAt c2.block).operations.length := hc2p
            _ = s.blocks[c2.block].operations.length := by rw [blockAt_eq _ _ hc2b]
            _ ≤ (tailOps s.blocks c2.block).length := length_ops_le_tailOps _ _ hc2b
          rw [remainingOps, remainingOps, htail2, hw2,
            List.drop_append_of_le_length hple, List.append_nil]
        · rw [totalOps_eq, totalOps_eq, hmap, hw2]
          simp

/-! ## `get` and `advance` specifications -/

theorem get_spec (c : DeleteCursor) (s : QueueState) (h : CursorInv c s) :
    ∃ c1 s1, c.get s = ((remainingOps c s).head?, c1, s1) ∧
      CursorInv c1 s1 ∧
      remainingOps c1 s1 = remainingOps c s ∧
      (∀ c2, CursorInv c2 s → CursorInv c2 s1 ∧ remainingOps c2 s1 = remainingOps c2 s) ∧
      s1.totalOps = s.totalOps := by
  obtain ⟨r, c1, s1, heq, hinv, hrem, hiff, hhead, hframe, htot⟩ := load_spec c s h
  refine ⟨c1, s1, ?_, hinv, hrem, hframe, htot⟩
  cases r
  case true =>
    obtain ⟨hlt, hq⟩ := hhead rfl
    simp [DeleteCursor.get, heq, hq]
  case false =>
    have hnil : remainingOps c s = [] := by
      by_contra hcon
      have := hiff.mpr hcon
      cases this
    simp [DeleteCursor.get, heq, hnil]

theorem advance_spec (c : DeleteCursor) (s : QueueState) (h : CursorInv c s) :
    ∃ c1 s1, c.advance s = (!(remainingOps c s).isEmpty, c1, s1) ∧
      CursorInv c1 s1 ∧
      remainingOps c1 s1 = (remainingOps c s).tail ∧
      (∀ c2, CursorInv c2 s → CursorInv c2 s1 ∧ remainingOps c2 s1 = remainingOps c2 s) ∧
      s1.totalOps = s.totalOps := by
  obtain ⟨r, c1, s1, heq, hinv, hrem, hiff, hhead, hframe, htot⟩ := load_spec c s h
  cases r
  case false =>
    have hnil : remainingOps c s = [] := by
      by_contra hcon
      have := hiff.mpr hcon
      cases this
    refine ⟨c1, s1, ?_, hinv, ?_, hframe, htot⟩
    · simp [DeleteCursor.advance, heq, hnil]
    · rw [hrem, hnil]
      rfl
  case true =>
    have hne : remainingOps c s ≠ [] := hiff.mp rfl
    obtain ⟨hinv1, hc1b, hc1p⟩ := hinv
    obtain ⟨hlt, hq⟩ := hhead rfl
    refine ⟨{ c1 with pos := c1.pos + 1 }, s1, ?_, ⟨hinv1, hc1b, hlt⟩, ?_, hframe, htot⟩
    · simp [DeleteCursor.advance, heq, List.isEmpty_eq_false.mpr hne]
    · have hd1 := remaining_decomp c1 s1 hc1b hc1p
      have hd2 := remaining_decomp { block := c1.block, pos := c1.pos + 1 } s1 hc1b hlt
      rw [hd2, hrem] at *
      rw [← hrem, hd1, List.drop_eq_getElem_cons hlt]
      rfl

/-! ## `is_behind_opstamp` and the `skip_to` loop -/

theorem is_behind_spec (c : DeleteCursor) (s : QueueState) (t : Opstamp) (h : CursorInv c s) :
    ∃ c1 s1, c.is_behind_opstamp s t =
        ((match (remainingOps c s).head? with
          | some op => decide (op.opstamp < t)
          | none => false), c1, s1) ∧
      CursorInv c1 s1 ∧
      remainingOps c1 s1 = remainingOps c s ∧
      (∀ c2, CursorInv c2 s → CursorInv c2 s1 ∧ remainingOps c2 s1 = remainingOps c2 s) ∧
      s1.totalOps = s.totalOps := by
  obtain ⟨c1, s1, heq, hinv, hrem, hframe, htot⟩ := get_spec c s h
  refine ⟨c1, s1, ?_, hinv, hrem, hframe, htot⟩
  cases hh : (remainingOps c s).head? <;>
    simp [DeleteCursor.is_behind_opstamp, heq, hh]

theorem skipToFuel_spec (t : Opstamp) :
    ∀ fuel (c : DeleteCursor) (s : QueueState), CursorInv c s →
      (remainingOps c s).length < fuel →
      ∃ c1 s1, DeleteCursor.skipToFuel fuel c s t = (c1, s1) ∧
        CursorInv c1 s1 ∧
        remainingOps c1 s1 =
          (remainingOps c s).dropWhile (fun op => decide (op.opstamp < t)) ∧
        (∀ c2, CursorInv c2 s → CursorInv c2 s1 ∧ remainingOps c2 s1 = remainingOps c2 s) ∧
        s1.totalOps = s.totalOps := by
  intro fuel
  induction fuel with
  | zero =>
    intro c s _ hlen
    exact absurd hlen (Nat.not_lt_zero _)
  | succ fuel ih =>
    intro c s hinv hlen
    obtain ⟨c1, s1, hbeq, hinv1, hrem1, hframe1, htot1⟩ := is_behind_spec c s t hinv
    cases hrm : remainingOps c s with
    | nil =>
      rw [hrm] at hbeq
      refine ⟨c1, s1, ?_, hinv1, ?_, hframe1, htot1⟩
      · simp [DeleteCursor.skipToFuel, hbeq]
      · rw [hrem1, hrm]
        rfl
    | cons op rest =>
      rw [hrm] at hbeq
      by_cases hop : op.opstamp < t
      case neg =>
        have hdec : decide (op.opstamp < t) = false := by simp [hop]
        rw [show (match (op :: rest).head? with
              | some op => decide (op.opstamp < t)
              | none => false) = false by simp [hdec]] at hbeq
        refine ⟨c1, s1, ?_, hinv1, ?_, hframe1, htot1⟩
        · simp [DeleteCursor.skipToFuel, hbeq]
        · rw [hrem1, hrm, List.dropWhile_cons, if_neg (by simp [hop])]
      case pos =>
        have hdec : decide (op.opstamp < t) = true := by simp [hop]
        rw [show (match (op :: rest).head? with
              | some op => decide (op.opstamp < t)
              | none => false) = true by simp [hdec]] at hbeq
        obtain ⟨c2, s2, haeq, hinv2, hrem2, hframe2, htot2⟩ := advance_spec c1 s1 hinv1
        have hrem2' : remainingOps c2 s2 = rest := by
          rw [hrem2, hrem1, hrm]
          rfl
        have hlen2 : (remainingOps c2 s2).length < fuel := by
          rw [hrem2']
          rw [hrm] at hlen
          simpa using Nat.lt_of_succ_lt_succ hlen
        obtain ⟨c3, s3, hseq, hinv3, hrem3, hframe3, htot3⟩ := ih c2 s2 hinv2 hlen2
        refine ⟨c3, s3, ?_, hinv3, ?_, ?_, ?_⟩
        · simp [DeleteCursor.skipToFuel, hbeq, haeq, hseq]
        · rw [hrem3, hrem2', List.dropWhile_cons, if_pos hdec]
        · intro c4 hc4
          obtain ⟨hc4a, hc4b⟩ := hframe1 c4 hc4
          obtain ⟨hc4c, hc4d⟩ := hframe2 c4 hc4a
          obtain ⟨hc4e, hc4f⟩ := hframe3 c4 hc4c
          exact ⟨hc4e, by rw [hc4f, hc4d, hc4b]⟩
        · rw [htot3, htot2, htot1]

/-! ## Fuel bound and `skip_to` -/

theorem tailOps_length_le (bs : List Block) (b : Nat) :
    (tailOps bs b).length ≤ ((bs.map Block.operations).map List.length).sum := by
  rw [tailOps_eq_drop_map, List.length_flatten, List.map_drop]
  have h := List.sum_take_add_sum_drop ((bs.map Block.operations).map List.length) b
  omega

theorem remaining_length_le_totalOps (c : DeleteCursor) (s : QueueState) :
    (remainingOps c s).length ≤ s.totalOps := by
  rw [remainingOps, List.length_append, totalOps_eq]
  have h1 := tailOps_length_le s.blocks c.block
  have h2 : (List.drop c.pos (tailOps s.blocks c.block)).length ≤
      (tailOps s.blocks c.block).length := by
    rw [List.length_drop]
    omega
  omega

theorem skip_to_spec (c : DeleteCursor) (s : QueueState) (t : Opstamp) (h : CursorInv c s) :
    ∃ c1 s1, c.skip_to s t = (c1, s1) ∧
      CursorInv c1 s1 ∧
      remainingOps c1 s1 =
        (remainingOps c s).dropWhile (fun op => decide (op.opstamp < t)) ∧
      (∀ c2, CursorInv c2 s → CursorInv c2 s1 ∧ remainingOps c2 s1 = remainingOps c2 s) ∧
      s1.totalOps = s.totalOps := by
  have hb := remaining_length_le_totalOps c s
  exact skipToFuel_spec t (s.totalOps + 1) c s h (by omega)

/-! ## `cursor` and `push` -/

theorem cursor_spec (s : QueueState) (hwf : WF s) :
    ∃ c s1, DeleteQueue.cursor s = (c, s1) ∧
      CursorInv c s1 ∧
      remainingOps c s1 = s.writer ∧
      s1.writer = s.writer ∧
      (∀ c2, CursorInv c2 s → CursorInv c2 s1 ∧ remainingOps c2 s1 = remainingOps c2 s) ∧
      s1.totalOps = s.totalOps := by
  obtain ⟨hchain, hlast, hne⟩ := hwf
  cases hsl : s.last_block with
  | some b =>
    -- the weak pointer upgrades: no state change, cursor at the tail offset
    rw [hsl] at hlast
    have hlen0 : s.blocks.length ≠ 0 := by
      intro hcon
      rw [if_pos hcon] at hlast
      cases hlast
    have hb : b = s.blocks.length - 1 := by
      rw [if_neg hlen0] at hlast
      injection hlast
    have hblt : b < s.blocks.length := by omega
    have heq : DeleteQueue.cursor s = (⟨b, (s.blockAt b).operations.length⟩, s) := by
      simp [DeleteQueue.cursor, DeleteQueue.get_last_block, hsl]
    refine ⟨_, s, heq,
      ⟨⟨hchain, by rw [hsl, if_neg hlen0, hb], hne⟩, hblt, le_rfl⟩, ?_, rfl,
      fun c2 hc2 => ⟨hc2, rfl⟩, rfl⟩
    show (tailOps s.blocks b).drop (s.blockAt b).operations.length ++ s.writer = s.writer
    rw [tailOps_cons _ _ hblt, ← blockAt_eq _ _ hblt,
      List.drop_append_of_le_length le_rfl, List.drop_length,
      tailOps_nil _ _ (by omega), List.nil_append, List.nil_append]
  | none =>
    -- dead weak pointer: install the initial empty block
    rw [hsl] at hlast
    have hlen0 : s.blocks.length = 0 := by
      by_contra hcon
      rw [if_neg hcon] at hlast
      cases hlast
    have hbs : s.blocks = [] := List.length_eq_zero.mp hlen0
    have heq : DeleteQueue.cursor s =
        (⟨0, 0⟩, QueueState.mk [{ operations := [], next := InnerNextBlock.writer }]
          s.writer (some 0)) := by
      simp [DeleteQueue.cursor, DeleteQueue.get_last_block, hsl, hbs, QueueState.blockAt]
    refine ⟨_, _, heq, ⟨?_, by show 0 < 1; omega, ?_⟩, ?_, rfl, ?_, ?_⟩
    · refine ⟨?_, rfl, ?_⟩
      · intro i hi
        have hi0 : i = 0 := by
          simp at hi
          omega
        subst hi0
        rfl
      · intro i hi hi0
        have : i = 0 := by
          simp at hi
          omega
        exact absurd this hi0
    · show (0 : Nat) ≤ 0
      exact le_rfl
    · show (tailOps [{ operations := [], next := InnerNextBlock.writer }] 0).drop 0
        ++ s.writer = s.writer
      rfl
    · intro c2 hc2
      obtain ⟨_, hb2, _⟩ := hc2
      rw [hlen0] at hb2
      exact absurd hb2 (by omega)
    · rw [totalOps_eq, totalOps_eq, hbs]
      rfl

theorem WF_push (s : QueueState) (op : DeleteOperation) (h : WF s) :
    WF (DeleteQueue.push s op) := h

theorem push_frame (s : QueueState) (op : DeleteOperation) (c2 : DeleteCursor)
    (h : CursorInv c2 s) :
    CursorInv c2 (DeleteQueue.push s op) ∧
    remainingOps c2 (DeleteQueue.push s op) = remainingOps c2 s ++ [op] := by
  obtain ⟨hwf, hb, hp⟩ := h
  refine ⟨⟨WF_push s op hwf, hb, hp⟩, ?_⟩
  show (tailOps s.blocks c2.block).drop c2.pos ++ (s.writer ++ [op]) = _
  rw [remainingOps, List.append_assoc]

/-! ## Interleaved producer/consumer traces

A trace interleaves producer steps (`push`, any thread) with steps of a
single draining consumer (`consume` = `get` followed by `advance`, recording
the operation read).  Because every Rust-side operation runs under the
queue's lock, an arbitrary sequential interleaving of these atomic steps is
a faithful model of the concurrent executions. -/

inductive QueueEvent where
  | push : DeleteOperation → QueueEvent
  | consume : QueueEvent
deriving Repr, DecidableEq

structure TraceState where
  queue : QueueState
  cursor : DeleteCursor
  consumed : List DeleteOperation
deriving Repr, DecidableEq

def stepEvent (ts : TraceState) : QueueEvent → TraceState
  | QueueEvent.push op => { ts with queue := DeleteQueue.push ts.queue op }
  | QueueEvent.consume =>
    match ts.cursor.get ts.queue with
    | (some op, c1, s1) =>
      match c1.advance s1 with
      | (_, c2, s2) => { queue := s2, cursor := c2, consumed := ts.consumed ++ [op] }
    | (none, c1, s1) => { queue := s1, cursor := c1, consumed := ts.consumed }

def runEvents (ts : TraceState) (es : List QueueEvent) : TraceState :=
  es.foldl stepEvent ts

/-- The operations pushed during a trace, in trace order. -/
def pushedOps (es : List QueueEvent) : List DeleteOperation :=
  es.filterMap (fun e =>
    match e with
    | QueueEvent.push op => some op
    | QueueEvent.consume => none)

/-- The queue is fresh and the single consumer's cursor was created before
any push. -/
def initTrace : TraceState :=
  match DeleteQueue.cursor DeleteQueue.new with
  | (c, s) => { queue := s, cursor := c, consumed := [] }

/-- Trace invariant: the cursor is reachable and the operations it has
consumed so far, followed by the operations it has yet to observe, are
exactly the pushed operations in push order. -/
def TraceInv (ts : TraceState) (P : List DeleteOperation) : Prop :=
  CursorInv ts.cursor ts.queue ∧
    ts.consumed ++ remainingOps ts.cursor ts.queue = P

instance (ts : TraceState) (P : List DeleteOperation) : Decidable (TraceInv ts P) := by
  unfold TraceInv
  infer_instance

theorem step_push_inv (ts : TraceState) (op : DeleteOperation) (P : List DeleteOperation)
    (h : TraceInv ts P) : TraceInv (stepEvent ts (QueueEvent.push op)) (P ++ [op]) := by
  obtain ⟨hinv, hsum⟩ := h
  obtain ⟨hinv1, hrem1⟩ := push_frame ts.queue op ts.cursor hinv
  refine ⟨hinv1, ?_⟩
  show ts.consumed ++ remainingOps ts.cursor (DeleteQueue.push ts.queue op) = P ++ [op]
  rw [hrem1, ← List.append_assoc, hsum]

theorem step_consume_inv (ts : TraceState) (P : List DeleteOperation)
    (h : TraceInv ts P) :
    TraceInv (stepEvent ts QueueEvent.consume) P ∧
    remainingOps (stepEvent ts QueueEvent.consume).cursor
        (stepEvent ts QueueEvent.consume).queue =
      (remainingOps ts.cursor ts.queue).tail := by
  obtain ⟨hinv, hsum⟩ := h
  obtain ⟨c1, s1, hgeq, hinv1, hrem1, _, _⟩ := get_spec ts.cursor ts.queue hinv
  cases hrm : remainingOps ts.cursor ts.queue with
  | nil =>
    rw [hrm] at hgeq
    have hstep : stepEvent ts QueueEvent.consume =
        { queue := s1, cursor := c1, consumed := ts.consumed } := by
      simp [stepEvent, hgeq]
    rw [hstep]
    refine ⟨⟨hinv1, ?_⟩, ?_⟩
    · show ts.consumed ++ remainingOps c1 s1 = P
      rw [hrem1, hsum]
    · show remainingOps c1 s1 = List.tail []
      rw [hrem1, hrm]
      rfl
  | cons op rest =>
    rw [hrm] at hgeq
    obtain ⟨c2, s2, haeq, hinv2, hrem2, _, _⟩ := advance_spec c1 s1 hinv1
    have hstep : stepEvent ts QueueEvent.consume =
        { queue := s2, cursor := c2, consumed := ts.consumed ++ [op] } := by
      simp [stepEvent, hgeq, haeq]
    rw [hstep]
    have hr2 : remainingOps c2 s2 = rest := by
      rw [hrem2, hrem1, hrm]
      rfl
    refine ⟨⟨hinv2, ?_⟩, ?_⟩
    · show (ts.consumed ++ [op]) ++ remainingOps c2 s2 = P
      rw [hr2, List.append_assoc, List.singleton_append, ← hrm, hsum]
    · show remainingOps c2 s2 = List.tail (op :: rest)
      rw [hr2]
      rfl

theorem runEvents_inv :
    ∀ (es : List QueueEvent) (ts : TraceState) (P : List DeleteOperation),
      TraceInv ts P → TraceInv (runEvents ts es) (P ++ pushedOps es) := by
  intro es
  induction es with
  | nil =>
    intro ts P h
    show TraceInv ts (P ++ pushedOps [])
    rw [show pushedOps [] = [] from rfl, List.append_nil]
    exact h
  | cons e es ih =>
    intro ts P h
    show TraceInv (runEvents (stepEvent ts e) es) (P ++ pushedOps (e :: es))
    cases e with
    | push op =>
      have h1 := step_push_inv ts op P h
      have h2 := ih (stepEvent ts (QueueEvent.push op)) (P ++ [op]) h1
      rw [show pushedOps (QueueEvent.push op :: es) = op :: pushedOps es from rfl]
      rw [List.append_assoc] at h2
      exact h2
    | consume =>
      have h1 := (step_consume_inv ts P h).1
      have h2 := ih (stepEvent ts QueueEvent.consume) P h1
      rw [show pushedOps (QueueEvent.consume :: es) = pushedOps es from rfl]
      exact h2

theorem initTrace_inv : TraceInv initTrace [] := by decide

theorem drain_consumes :
    ∀ (n : Nat) (ts : TraceState) (P : List DeleteOperation), TraceInv ts P →
      (remainingOps ts.cursor ts.queue).length ≤ n →
      remainingOps (runEvents ts (List.replicate n QueueEvent.consume)).cursor
        (runEvents ts (List.replicate n QueueEvent.consume)).queue = [] := by
  intro n
  induction n with
  | zero =>
    intro ts P h hlen
    have : remainingOps ts.cursor ts.queue = [] :=
      List.eq_nil_of_length_eq_zero (Nat.le_zero.mp hlen)
    exact this
  | succ n ih =>
    intro ts P h hlen
    rw [List.replicate_succ]
    show remainingOps (runEvents (stepEvent ts QueueEvent.consume)
        (List.replicate n QueueEvent.consume)).cursor _ = []
    obtain ⟨h1, h2⟩ := step_consume_inv ts P h
    refine ih (stepEvent ts QueueEvent.consume) P h1 ?_
    rw [h2, List.length_tail]
    omega

/-! ## Concrete scenarios -/

/-- An operation with a given opstamp (the payload token mirrors it). -/
def mkOp (i : Nat) : DeleteOperation :=
  { opstamp := i, target := i }

/-- Scenario for C1: a fresh queue with opstamp-1 and opstamp-2 operations
pushed (still pending) before any cursor exists — exactly the premise of the
claim's concrete test. -/
def c1q0 : QueueState :=
  DeleteQueue.push (DeleteQueue.push DeleteQueue.new (mkOp 1)) (mkOp 2)

def c1cur : DeleteCursor × QueueState := DeleteQueue.cursor c1q0

def c1g1 : Option DeleteOperation × DeleteCursor × QueueState :=
  c1cur.1.get c1cur.2

def c1a1 : Bool × DeleteCursor × QueueState :=
  c1g1.2.1.advance c1g1.2.2

def c1g2 : Option DeleteOperation × DeleteCursor × QueueState :=
  c1a1.2.1.get c1a1.2.2

def c1a2 : Bool × DeleteCursor × QueueState :=
  c1g2.2.1.advance c1g2.2.2

def c1g3 : Option DeleteOperation × DeleteCursor × QueueState :=
  c1a2.2.1.get c1a2.2.2

def c1q3 : QueueState := DeleteQueue.push c1g3.2.2 (mkOp 3)

def c1g4 : Option DeleteOperation × DeleteCursor × QueueState :=
  c1g3.2.1.get c1q3

/-! ## Claim C1 -/

/-- C1 counterexample: the claim's own concrete test fails on the code.
After `push(opstamp=1)`, `push(opstamp=2)` on a fresh queue, a cursor
obtained from `cursor()` does NOT read `none`: its first `get()` triggers
the lazy flush of the pending buffer and returns the opstamp-1 operation
(exactly what the repository's `test_deletequeue` asserts). -/
theorem C1_counterexample :
    c1g1.1 ≠ none ∧ c1g1.1 = some (mkOp 1) := by
  decide

/-- C1 (amended): a cursor created by `cursor()` observes exactly the
operations still pending (unmaterialized) at its creation, followed by
everything pushed later — not none of them.  Only operations already
materialized into blocks before the cursor's creation are skipped. -/
theorem C1_amended_cursor_sees_pending (s : QueueState) (hwf : WF s) :
    ∃ c s1, DeleteQueue.cursor s = (c, s1) ∧
      remainingOps c s1 = s.writer ∧
      (∀ op, remainingOps c (DeleteQueue.push s1 op) = s.writer ++ [op]) := by
  obtain ⟨c, s1, heq, hinv, hrem, _, _, _⟩ := cursor_spec s hwf
  refine ⟨c, s1, heq, hrem, ?_⟩
  intro op
  have := (push_frame s1 op c hinv).2
  rw [this, hrem]

/-- C1 amended-claim witness: in the concrete scenario the cursor created
after the two pending pushes observes exactly those two operations (its
first `get()` returns the opstamp-1 operation, and the full replay of the
repository's test holds). -/
theorem C1_amended_witness :
    WF c1q0 ∧
    (∃ c s1, DeleteQueue.cursor c1q0 = (c, s1) ∧
      remainingOps c s1 = c1q0.writer ∧
      (∀ op, remainingOps c (DeleteQueue.push s1 op) = c1q0.writer ++ [op])) ∧
    c1g1.1 = some (mkOp 1) ∧ c1g2.1 = some (mkOp 2) ∧ c1g3.1 = none ∧
    c1g4.1 = some (mkOp 3) :=
  ⟨by decide, C1_amended_cursor_sees_pending c1q0 (by decide), by decide, by decide,
    by decide, by decide⟩

/-! ## Claim C2 -/

theorem pushedOps_replicate_consume (n : Nat) :
    pushedOps (List.replicate n QueueEvent.consume) = [] := by
  induction n with
  | zero => rfl
  | succ n ih =>
    rw [List.replicate_succ]
    show pushedOps (List.replicate n QueueEvent.consume) = []
    exact ih

/-- C2: for every interleaving of pushes and cursor reads, a cursor created
on the fresh queue (before any push), after enough further `get`/`advance`
steps to drain it, has consumed exactly the pushed operations — each exactly
once, in exactly push order; nothing is lost, duplicated or reordered. -/
theorem C2_cursor_observes_push_order (es : List QueueEvent) :
    (runEvents initTrace
        (es ++ List.replicate (pushedOps es).length QueueEvent.consume)).consumed
      = pushedOps es := by
  have h1 := runEvents_inv es initTrace [] initTrace_inv
  rw [List.nil_append] at h1
  have hlen : (remainingOps (runEvents initTrace es).cursor
      (runEvents initTrace es).queue).length ≤ (pushedOps es).length := by
    have hl := congrArg List.length h1.2
    rw [List.length_append] at hl
    omega
  have h2 := runEvents_inv (List.replicate (pushedOps es).length QueueEvent.consume)
    (runEvents initTrace es) (pushedOps es) h1
  rw [pushedOps_replicate_consume, List.append_nil] at h2
  have h3 := drain_consumes (pushedOps es).length (runEvents initTrace es)
    (pushedOps es) h1 hlen
  have hsplit : runEvents initTrace
      (es ++ List.replicate (pushedOps es).length QueueEvent.consume)
      = runEvents (runEvents initTrace es)
          (List.replicate (pushedOps es).length QueueEvent.consume) := by
    rw [runEvents, runEvents, runEvents, List.foldl_append]
  rw [hsplit]
  have h4 := h2.2
  rw [h3, List.append_nil] at h4
  exact h4

/-! ## Claim C3 -/

/-- C3: `skip_to(t)` drops exactly the maximal prefix of the remaining
operation sequence whose opstamps are strictly below `t`: afterwards the
next `get()` returns the first remaining operation with opstamp ≥ t (or
`none` if the log was exhausted first), and if the currently-pointed-at
operation's opstamp is already ≥ t the loop stops immediately after that
single `get`, changing nothing further. -/
theorem C3_skip_to_first_at_or_after (c : DeleteCursor) (s : QueueState) (t : Opstamp)
    (h : CursorInv c s) :
    (∃ c1 s1, c.skip_to s t = (c1, s1) ∧
      remainingOps c1 s1 =
        (remainingOps c s).dropWhile (fun op => decide (op.opstamp < t)) ∧
      (c1.get s1).1 =
        ((remainingOps c s).dropWhile (fun op => decide (op.opstamp < t))).head?) ∧
    (∀ op, (c.get s).1 = some op → ¬ op.opstamp < t →
      c.skip_to s t = (c.get s).2) := by
  constructor
  · obtain ⟨c1, s1, heq, hinv1, hrem1, _, _⟩ := skip_to_spec c s t h
    obtain ⟨c2, s2, hgeq, _, _, _, _⟩ := get_spec c1 s1 hinv1
    refine ⟨c1, s1, heq, hrem1, ?_⟩
    rw [hgeq, hrem1]
  · intro op hget hop
    have hdec : decide (op.opstamp < t) = false := by simp [hop]
    have hfull : c.get s = (some op, (c.get s).2) := by
      rw [← hget]
    show DeleteCursor.skipToFuel (s.totalOps + 1) c s t = (c.get s).2
    rw [DeleteCursor.skipToFuel, DeleteCursor.is_behind_opstamp, hfull]
    simp [hdec]

/-! ## Claim C4 -/

/-- Scenario for C4: fresh queue, cursor created first, then one push. -/
def c4cur : DeleteCursor × QueueState := DeleteQueue.cursor DeleteQueue.new

def c4q1 : QueueState := DeleteQueue.push c4cur.2 (mkOp 1)

def c4a : Bool × DeleteCursor × QueueState := c4cur.1.advance c4q1

/-- C4 counterexample: `advance()` can return `true` although no operation
is available at the cursor's new position.  With exactly one pending
operation, `advance()` consumes it and returns `true`, yet the immediately
following `get()` on the unchanged log returns `none` — refuting the
claimed "true iff an operation is available after the call". -/
theorem C4_counterexample :
    c4a.1 = true ∧ (c4a.2.1.get c4a.2.2).1 = none := by
  decide

/-- C4 (amended): `advance()` returns `true` iff an operation was available
at the position being advanced past — equivalently, iff a `get()` performed
immediately before the call would have returned `some`.  The return value
says nothing about the new position. -/
theorem C4_amended_advance_reports_pre_state (c : DeleteCursor) (s : QueueState)
    (h : CursorInv c s) :
    ((c.advance s).1 = true ↔ (c.get s).1.isSome = true) ∧
    ((c.advance s).1 = true ↔ remainingOps c s ≠ []) := by
  obtain ⟨c1, s1, haeq, _, _, _, _⟩ := advance_spec c s h
  obtain ⟨c2, s2, hgeq, _, _, _, _⟩ := get_spec c s h
  rw [haeq, hgeq]
  cases hrm : remainingOps c s <;> simp

/-- C4 amended-claim witness at the concrete scenario: the cursor with one
pending operation advances with result `true`, and indeed a `get` before
the call returns `some`. -/
theorem C4_amended_witness :
    CursorInv c4cur.1 c4q1 ∧
    (((c4cur.1.advance c4q1).1 = true ↔ (c4cur.1.get c4q1).1.isSome = true) ∧
     ((c4cur.1.advance c4q1).1 = true ↔ remainingOps c4cur.1 c4q1 ≠ [])) ∧
    (c4cur.1.advance c4q1).1 = true ∧ (c4cur.1.get c4q1).1 = some (mkOp 1) :=
  ⟨by decide, C4_amended_advance_reports_pre_state c4cur.1 c4q1 (by decide),
    by decide, by decide⟩

/-! ## Claim C5 -/

/-- C5: `flush()` returns `none` exactly when the pending buffer is empty
and in that case changes nothing; otherwise it produces a fresh block
holding exactly the buffered operations in push order, empties the buffer,
publishes the new block as the weak latest, and leaves every existing block
untouched — nothing is dropped or duplicated across the flush boundary. -/
theorem C5_flush_moves_buffer (s : QueueState) :
    ((DeleteQueue.flush s).1 = none ↔ s.writer = []) ∧
    (s.writer = [] → DeleteQueue.flush s = (none, s)) ∧
    (s.writer ≠ [] → ∃ s1, DeleteQueue.flush s = (some s.blocks.length, s1) ∧
      (s1.blockAt s.blocks.length).operations = s.writer ∧
      s1.writer = [] ∧
      s1.last_block = some s.blocks.length ∧
      s1.blocks.length = s.blocks.length + 1 ∧
      (∀ i, i < s.blocks.length → s1.blockAt i = s.blockAt i)) := by
  refine ⟨⟨?_, ?_⟩, fun hw => flush_empty s hw, fun hw => ?_⟩
  · intro h1
    by_contra hw
    rw [flush_nonempty s hw] at h1
    cases h1
  · intro hw
    rw [flush_empty s hw]
  · rw [flush_nonempty s hw]
    refine ⟨_, rfl, ?_, rfl, rfl, by simp, ?_⟩
    · rw [blockAt_mk, List.getElem?_append_right le_rfl]
      simp
    · intro i hi
      rw [blockAt_mk, blockAt_getElem?, List.getElem?_append, if_pos hi]

/-- Scenario for C5 and C6: one materialized (initial, empty) block whose
link is still bound to the queue, and one pending operation. -/
def c56s : QueueState :=
  QueueState.mk [{ operations := [], next := InnerNextBlock.writer }] [mkOp 1] (some 0)

/-- C5 witness: at a concrete state with a non-empty pending buffer, `flush`
produces exactly the buffered operation and empties the buffer. -/
theorem C5_flush_witness :
    c56s.writer ≠ [] ∧
    (∃ s1, DeleteQueue.flush c56s = (some c56s.blocks.length, s1) ∧
      (s1.blockAt c56s.blocks.length).operations = c56s.writer ∧
      s1.writer = [] ∧
      s1.last_block = some c56s.blocks.length ∧
      s1.blocks.length = c56s.blocks.length + 1 ∧
      (∀ i, i < c56s.blocks.length → s1.blockAt i = c56s.blockAt i)) :=
  ⟨by decide, (C5_flush_moves_buffer c56s).2.2 (by decide)⟩

/-! ## Claim C6 -/

/-- C6: a block's link resolver settles at most once, permanently and
idempotently.  If `next_block()` on block `b` returns a successor `nb`,
then `b`'s link is `Closed(nb)`; and from any state in which `b`'s link is
`Closed(nb)`, every further `next_block()` call returns the same `nb` and
leaves the state completely unchanged (in particular it never invokes
`flush` again, even when the pending buffer is non-empty).  While
`next_block()` returns `none`, the state is unchanged and the link is still
bound to the writer, so the call can be retried. -/
theorem C6_link_resolves_once (s : QueueState) (b : Nat) (hwf : WF s)
    (hb : b < s.blocks.length) :
    (∀ nb s1, NextBlock.next_block s b = (some nb, s1) →
      (s1.blockAt b).next = InnerNextBlock.closed nb ∧
      (∀ s2, (s2.blockAt b).next = InnerNextBlock.closed nb →
        NextBlock.next_block s2 b = (some nb, s2))) ∧
    (∀ s1, NextBlock.next_block s b = (none, s1) →
      s1 = s ∧ (s.blockAt b).next = InnerNextBlock.writer) := by
  constructor
  · intro nb s1 heq
    refine ⟨?_, fun s2 h2 => next_block_closed s2 b nb h2⟩
    cases hnext : (s.blockAt b).next with
    | closed cc =>
      rw [next_block_closed s b cc hnext] at heq
      obtain ⟨h1, h2⟩ := Prod.mk.injEq .. ▸ heq
      injection h1 with h1
      subst h1
      subst h2
      exact hnext
    | writer =>
      by_cases hw : s.writer = []
      · rw [next_block_writer_empty s b hnext hw] at heq
        cases (Prod.mk.injEq .. ▸ heq).1
      · obtain ⟨s2, heq2, _, _, _, _, hclosed2, _, _⟩ :=
          next_block_flush s b hwf hb hnext hw
        rw [heq2] at heq
        obtain ⟨h1, h2⟩ := Prod.mk.injEq .. ▸ heq
        injection h1 with h1
        subst h1
        subst h2
        exact hclosed2
  · intro s1 heq
    cases hnext : (s.blockAt b).next with
    | closed cc =>
      rw [next_block_closed s b cc hnext] at heq
      cases (Prod.mk.injEq .. ▸ heq).1
    | writer =>
      by_cases hw : s.writer = []
      · rw [next_block_writer_empty s b hnext hw] at heq
        exact ⟨((Prod.mk.injEq .. ▸ heq).2).symm, rfl⟩
      · obtain ⟨s2, heq2, _⟩ := next_block_flush s b hwf hb hnext hw
        rw [heq2] at heq
        cases (Prod.mk.injEq .. ▸ heq).1

/-- C6 witness: at the concrete state with one pending operation, resolving
block 0's link flushes and closes the link; re-running `next_block` from the
resolved state returns the same successor and changes nothing. -/
theorem C6_link_witness :
    WF c56s ∧ 0 < c56s.blocks.length ∧
    (∀ nb s1, NextBlock.next_block c56s 0 = (some nb, s1) →
      (s1.blockAt 0).next = InnerNextBlock.closed nb ∧
      (∀ s2, (s2.blockAt 0).next = InnerNextBlock.closed nb →
        NextBlock.next_block s2 0 = (some nb, s2))) ∧
    (NextBlock.next_block c56s 0).1 = some 1 :=
  ⟨by decide, by decide, (C6_link_resolves_once c56s 0 (by decide) (by decide)).1,
    by decide⟩

/-! ## Claim C7 -/

/-- C7: cloning a cursor yields an independent cursor at the same logical
position with the same remaining subsequence; any `get`, `advance` or
`skip_to` performed with the original cursor leaves the clone's position
(trivially, a value) and the clone's entire remaining observation sequence
unchanged, even though the shared queue state may materialize blocks. -/
theorem C7_clone_independent (c : DeleteCursor) (s : QueueState) (h : CursorInv c s) :
    (c.clone = c ∧ remainingOps c.clone s = remainingOps c s) ∧
    (∀ v c1 s1, c.get s = (v, c1, s1) →
      CursorInv c.clone s1 ∧ remainingOps c.clone s1 = remainingOps c.clone s) ∧
    (∀ r c1 s1, c.advance s = (r, c1, s1) →
      CursorInv c.clone s1 ∧ remainingOps c.clone s1 = remainingOps c.clone s) ∧
    (∀ t c1 s1, c.skip_to s t = (c1, s1) →
      CursorInv c.clone s1 ∧ remainingOps c.clone s1 = remainingOps c.clone s) := by
  have hcl : c.clone = c := rfl
  rw [hcl]
  refine ⟨⟨rfl, rfl⟩, ?_, ?_, ?_⟩
  · intro v c1 s1 hyp
    obtain ⟨c1', s1', hgeq, _, _, hframe, _⟩ := get_spec c s h
    rw [hgeq] at hyp
    simp only [Prod.mk.injEq] at hyp
    obtain ⟨-, -, h3⟩ := hyp
    subst h3
    exact hframe c h
  · intro r c1 s1 hyp
    obtain ⟨c1', s1', haeq, _, _, hframe, _⟩ := advance_spec c s h
    rw [haeq] at hyp
    simp only [Prod.mk.injEq] at hyp
    obtain ⟨-, -, h3⟩ := hyp
    subst h3
    exact hframe c h
  · intro t c1 s1 hyp
    obtain ⟨c1', s1', hseq, _, _, hframe, _⟩ := skip_to_spec c s t h
    rw [hseq] at hyp
    simp only [Prod.mk.injEq] at hyp
    obtain ⟨-, h3⟩ := hyp
    subst h3
    exact hframe c h

/-- Scenario for C7: two clones A and B of the same snapshot cursor over a
queue with two pending operations; A reads and advances, B reads after. -/
def c7q0 : QueueState :=
  DeleteQueue.push (DeleteQueue.push DeleteQueue.new (mkOp 1)) (mkOp 2)

def c7cur : DeleteCursor × QueueState := DeleteQueue.cursor c7q0

def c7gA : Option DeleteOperation × DeleteCursor × QueueState :=
  c7cur.1.clone.get c7cur.2

def c7aA : Bool × DeleteCursor × QueueState :=
  c7gA.2.1.advance c7gA.2.2

def c7gB : Option DeleteOperation × DeleteCursor × QueueState :=
  c7cur.1.clone.get c7aA.2.2

/-- C7 witness: in the concrete scenario, after clone A has read the
opstamp-1 operation and advanced, clone B still reads the opstamp-1
operation — A's progress did not perturb B. -/
theorem C7_clone_witness :
    CursorInv c7cur.1 c7cur.2 ∧
    (c7cur.1.clone = c7cur.1 ∧
      remainingOps c7cur.1.clone c7cur.2 = remainingOps c7cur.1 c7cur.2) ∧
    c7gA.1 = some (mkOp 1) ∧ c7gB.1 = some (mkOp 1) :=
  ⟨by decide, (C7_clone_independent c7cur.1 c7cur.2 (by decide)).1, by decide, by decide⟩

/-! ## Claim C8 -/

/-- C8: `push` only appends to the pending buffer: it materializes no block
(the block heap is untouched), leaves the weak latest-block pointer
unchanged, leaves the contents of every block unchanged, and leaves every
existing cursor's position and validity unchanged (its pending observation
sequence simply gains the new operation at the end). -/
theorem C8_push_only_appends (s : QueueState) (op : DeleteOperation) :
    (DeleteQueue.push s op).blocks = s.blocks ∧
    (DeleteQueue.push s op).last_block = s.last_block ∧
    (DeleteQueue.push s op).writer = s.writer ++ [op] ∧
    (∀ b, (DeleteQueue.push s op).blockAt b = s.blockAt b) ∧
    (∀ c, CursorInv c s →
      CursorInv c (DeleteQueue.push s op) ∧
      remainingOps c (DeleteQueue.push s op) = remainingOps c s ++ [op]) :=
  ⟨rfl, rfl, rfl, fun _ => rfl, fun c hc => push_frame s op c hc⟩

/-- C8 witness: at a concrete state with a live cursor, pushing leaves the
cursor valid and in place and appends the operation to its view. -/
theorem C8_push_witness :
    CursorInv c7cur.1 c7cur.2 ∧
    (CursorInv c7cur.1 (DeleteQueue.push c7cur.2 (mkOp 3)) ∧
      remainingOps c7cur.1 (DeleteQueue.push c7cur.2 (mkOp 3)) =
        remainingOps c7cur.1 c7cur.2 ++ [mkOp 3]) :=
  ⟨by decide, (C8_push_only_appends c7cur.2 (mkOp 3)).2.2.2.2 c7cur.1 (by decide)⟩

/-! ## Claim C9 -/

/-- C9: in any interleaving of producer pushes with steps of a single
draining cursor created at queue birth, once the cursor is fully drained
the sequence it consumed is exactly the pushed sequence — so in particular
the consumed count equals the pushed count: no loss, no duplication, and
per-cursor delivery is exactly-once in push order. -/
theorem C9_drained_consumes_all (es : List QueueEvent)
    (h : remainingOps (runEvents initTrace es).cursor
      (runEvents initTrace es).queue = []) :
    (runEvents initTrace es).consumed = pushedOps es ∧
    (runEvents initTrace es).consumed.length = (pushedOps es).length := by
  have h1 := runEvents_inv es initTrace [] initTrace_inv
  rw [List.nil_append] at h1
  have h2 := h1.2
  rw [h, List.append_nil] at h2
  exact ⟨h2, by rw [h2]⟩

/-- Concrete interleaving for C9: two producer pushes interleaved with
three consumer steps; the final consumer step finds the queue drained. -/
def c9es : List QueueEvent :=
  [QueueEvent.push (mkOp 1), QueueEvent.consume, QueueEvent.push (mkOp 2),
   QueueEvent.consume, QueueEvent.consume]

/-- C9 witness: the concrete interleaving ends drained, and the consumed
sequence equals the pushed sequence (hence equal counts). -/
theorem C9_drained_witness :
    remainingOps (runEvents initTrace c9es).cursor (runEvents initTrace c9es).queue = [] ∧
    ((runEvents initTrace c9es).consumed = pushedOps c9es ∧
     (runEvents initTrace c9es).consumed.length = (pushedOps c9es).length) :=
  ⟨by decide, C9_drained_consumes_all c9es (by decide)⟩

/-! ## Claim C10 -/

/-- C10: the cursor invariant (`pos ≤` block length over a well-formed
chain) is established by `cursor()` and preserved by `push`, `get`,
`advance` and `skip_to`; every block produced by `flush` is non-empty; and
whenever `load_block_if_required` answers `true` the position is strictly
in bounds, so the indexing expression in `get()` succeeds — exhaustion is
always reported as `none`, never as an out-of-bounds access. -/
theorem C10_get_never_panics (c : DeleteCursor) (s : QueueState) (h : CursorInv c s) :
    (∀ r c1 s1, c.load_block_if_required s = (r, c1, s1) →
      CursorInv c1 s1 ∧
      (r = true → c1.pos < (s1.blockAt c1.block).operations.length ∧
        ((s1.blockAt c1.block).operations[c1.pos]?).isSome = true)) ∧
    ((c.get s).1 = none ↔ remainingOps c s = []) ∧
    (∀ b s1, DeleteQueue.flush s = (some b, s1) → (s1.blockAt b).operations ≠ []) ∧
    (∀ c0 s1, DeleteQueue.cursor s = (c0, s1) → CursorInv c0 s1) ∧
    (∀ op, CursorInv c (DeleteQueue.push s op)) ∧
    (∀ v c1 s1, c.get s = (v, c1, s1) → CursorInv c1 s1) ∧
    (∀ r c1 s1, c.advance s = (r, c1, s1) → CursorInv c1 s1) ∧
    (∀ t c1 s1, c.skip_to s t = (c1, s1) → CursorInv c1 s1) := by
  refine ⟨?_, ?_, ?_, ?_, ?_, ?_, ?_, ?_⟩
  · intro r c1 s1 hyp
    obtain ⟨r', c1', s1', hleq, hinv', _, _, hhead', _, _⟩ := load_spec c s h
    rw [hleq] at hyp
    simp only [Prod.mk.injEq] at hyp
    obtain ⟨h1, h2, h3⟩ := hyp
    subst h1
    subst h2
    subst h3
    refine ⟨hinv', fun ht => ?_⟩
    obtain ⟨hlt, _⟩ := hhead' ht
    refine ⟨hlt, ?_⟩
    rw [List.getElem?_eq_getElem hlt]
    rfl
  · obtain ⟨c1', s1', hgeq, _, _, _, _⟩ := get_spec c s h
    rw [hgeq]
    show (remainingOps c s).head? = none ↔ _
    exact List.head?_eq_none_iff
  · intro b s1 hyp
    by_cases hw : s.writer = []
    · rw [flush_empty s hw] at hyp
      cases (Prod.mk.injEq .. ▸ hyp).1
    · rw [flush_nonempty s hw] at hyp
      obtain ⟨h1, h2⟩ := Prod.mk.injEq .. ▸ hyp
      injection h1 with h1
      subst h1
      subst h2
      rw [blockAt_mk, List.getElem?_append_right le_rfl]
      simpa using hw
  · intro c0 s1 hyp
    obtain ⟨c0', s1', hceq, hinv0, _, _, _, _⟩ := cursor_spec s h.1
    rw [hceq] at hyp
    simp only [Prod.mk.injEq] at hyp
    obtain ⟨h1, h2⟩ := hyp
    subst h1
    subst h2
    exact hinv0
  · intro op
    exact (push_frame s op c h).1
  · intro v c1 s1 hyp
    obtain ⟨c1', s1', hgeq, hinv1, _, _, _⟩ := get_spec c s h
    rw [hgeq] at hyp
    simp only [Prod.mk.injEq] at hyp
    obtain ⟨-, h2, h3⟩ := hyp
    subst h2
    subst h3
    exact hinv1
  · intro r c1 s1 hyp
    obtain ⟨c1', s1', haeq, hinv1, _, _, _⟩ := advance_spec c s h
    rw [haeq] at hyp
    simp only [Prod.mk.injEq] at hyp
    obtain ⟨-, h2, h3⟩ := hyp
    subst h2
    subst h3
    exact hinv1
  · intro t c1 s1 hyp
    obtain ⟨c1', s1', hseq, hinv1, _, _, _⟩ := skip_to_spec c s t h
    rw [hseq] at hyp
    simp only [Prod.mk.injEq] at hyp
    obtain ⟨h2, h3⟩ := hyp
    subst h2
    subst h3
    exact hinv1

/-- A cursor positioned at the start of the initial block of the concrete
C5/C6 scenario state. -/
def c10c : DeleteCursor := { block := 0, pos := 0 }

/-- C10 witness: at the concrete state with one pending operation, `get`
does not report exhaustion (the remaining sequence is non-empty) and in
fact returns the pending operation — the in-bounds index succeeded. -/
theorem C10_get_witness :
    CursorInv c10c c56s ∧
    ((c10c.get c56s).1 = none ↔ remainingOps c10c c56s = []) ∧
    (c10c.get c56s).1 = some (mkOp 1) :=
  ⟨by decide, (C10_get_never_panics c10c c56s (by decide)).2.1, by decide⟩

/-- Scenario for the C3 witness: a cursor created on the fresh queue,
followed by pushes with opstamps 1, 2, 3, 7, 9. -/
def c3cur : DeleteCursor × QueueState := DeleteQueue.cursor DeleteQueue.new

def c3q : QueueState :=
  DeleteQueue.push (DeleteQueue.push (DeleteQueue.push (DeleteQueue.push
    (DeleteQueue.push c3cur.2 (mkOp 1)) (mkOp 2)) (mkOp 3)) (mkOp 7)) (mkOp 9)

/-- C3 witness: over remaining opstamps `[1, 2, 3, 7, 9]`, `skip_to(5)`
lands on the opstamp-7 operation — the first with opstamp ≥ 5. -/
theorem C3_skip_to_witness :
    CursorInv c3cur.1 c3q ∧
    (∃ c1 s1, c3cur.1.skip_to c3q 5 = (c1, s1) ∧
      remainingOps c1 s1 =
        (remainingOps c3cur.1 c3q).dropWhile (fun op => decide (op.opstamp < 5)) ∧
      (c1.get s1).1 =
        ((remainingOps c3cur.1 c3q).dropWhile (fun op => decide (op.opstamp < 5))).head?) ∧
    remainingOps c3cur.1 c3q = [mkOp 1, mkOp 2, mkOp 3, mkOp 7, mkOp 9] ∧
    ((c3cur.1.skip_to c3q 5).1.get (c3cur.1.skip_to c3q 5).2).1 = some (mkOp 7) :=
  ⟨by decide, (C3_skip_to_first_at_or_after c3cur.1 c3q 5 (by decide)).1,
    by decide, by decide⟩
